import Mathlib

/-!
Verification development for `depak/main.cpp`, the Kingdoms of Amalur:
Re-Reckoning PAK dumper.

The container file is modelled as a `List Nat` of byte values.  `fread`
past the end of the file leaves the zero-initialised destination
unchanged, which the model renders as reading byte value 0
(`List.getD _ 0`).  All integer fields are little-endian unsigned
values; machine words are `Nat` with explicit `% 2 ^ 32` where the
source's `uint32_t` arithmetic can wrap.  The external decompressor
`aP_depack_asm` is a parameter `D : List Nat → List Nat` whose result
is the byte sequence it writes, its length being the returned size.
-/

namespace Depak

/-- Byte at absolute offset `i`; 0 beyond the end of the file (matching
`fread` at EOF leaving the zero-initialised destination unchanged). -/
def byteAt (file : List Nat) (i : Nat) : Nat := file.getD i 0

/-- `fread` of a little-endian `uint32_t` at absolute offset `pos`. -/
def readU32 (file : List Nat) (pos : Nat) : Nat :=
  byteAt file pos + 256 * byteAt file (pos + 1) + 65536 * byteAt file (pos + 2) +
    16777216 * byteAt file (pos + 3)

/-- `fread` of a little-endian `uint64_t` at absolute offset `pos`. -/
def readU64 (file : List Nat) (pos : Nat) : Nat :=
  readU32 file pos + 4294967296 * readU32 file (pos + 4)

/-- `fread` of `n` raw bytes starting at absolute offset `pos`. -/
def readBytes (file : List Nat) (pos n : Nat) : List Nat :=
  (List.range n).map (fun i => byteAt file (pos + i))

/-- Little-endian serialisation of a `uint32_t` value. -/
def u32le (n : Nat) : List Nat :=
  [n % 256, n / 256 % 256, n / 65536 % 256, n / 16777216 % 256]

/-- `pakheader_t` (main.cpp lines 24-33): the PAK file header. -/
structure pakheader_t where
  Signature : Nat
  IsValid : Nat
  Unknown00 : Nat
  Unknown01 : Nat
  EntriesOffset : Nat
  Unknown02 : Nat
  Unknown03 : Nat
deriving DecidableEq, Repr

/-- `pakfileentry_t` (main.cpp lines 39-44): one 12-byte entry record. -/
structure pakfileentry_t where
  Crc : Nat
  Position : Nat
  Size : Nat
deriving DecidableEq, Repr

/-- `PakFileType::KaikoCompressedLE` (line 68), the one signature that
`main`'s switch dispatches to a processor. -/
def KaikoCompressedLE : Nat := 0x6C4B504B

/-- `fread(&header, sizeof(pakheader_t), 1, f)` at offset 0 (line 322).
MSVC x64 layout: four `u32` at offsets 0/4/8/12, the `u64` at 16 (8-byte
aligned), two `u32` at 24/28; `sizeof(pakheader_t) = 32`. -/
def readHeader (file : List Nat) : pakheader_t :=
  ⟨readU32 file 0, readU32 file 4, readU32 file 8, readU32 file 12,
    readU64 file 16, readU32 file 24, readU32 file 28⟩

/-- The entry-table read loop (lines 180-191): `count` consecutive
12-byte `pakfileentry_t` records starting at absolute offset `pos`. -/
def readEntryList (file : List Nat) (pos count : Nat) : List pakfileentry_t :=
  (List.range count).map (fun i =>
    ⟨readU32 file (pos + 12 * i), readU32 file (pos + 12 * i + 4),
      readU32 file (pos + 12 * i + 8)⟩)

/-- The comparator lambda passed to `std::sort` (lines 194-196). -/
def entryLess (a b : pakfileentry_t) : Prop := a.Position < b.Position

instance : DecidableRel entryLess := fun a b => Nat.decLt a.Position b.Position

/-- Contract of the `std::sort` call at line 194: the output is a
permutation of the input that `is_sorted` with respect to the comparator
(no element compares less than one before it).  The C++ standard
promises nothing more for `std::sort` — in particular not stability —
so the call is modelled as a relation from input to admissible outputs. -/
def sortRel (input output : List pakfileentry_t) : Prop :=
  input.Perm output ∧ output.Pairwise (fun a b => ¬ entryLess b a)

/-- Non-strict position order on entries. -/
def posLE (a b : pakfileentry_t) : Prop := a.Position ≤ b.Position

instance : DecidableRel posLE := fun a b => Nat.decLe a.Position b.Position

instance : IsTotal pakfileentry_t posLE := ⟨fun a b => Nat.le_total a.Position b.Position⟩

instance : IsTrans pakfileentry_t posLE := ⟨fun _ _ _ h1 h2 => Nat.le_trans h1 h2⟩

instance : IsAntisymm pakfileentry_t entryLess :=
  ⟨fun _ _ h1 h2 => absurd h1 (Nat.lt_asymm h2)⟩

/-- Spec-side definition, following the spec's words "stable sort; ties
broken by original read order": insertion sort by non-strict position
order, which preserves the relative order of equal-position entries. -/
def stableSortByPosition (l : List pakfileentry_t) : List pakfileentry_t :=
  l.insertionSort posLE

/-- One hexadecimal digit as `sprintf` `%X` prints it (uppercase). -/
def hexDigit (n : Nat) : Char :=
  if n < 10 then Char.ofNat (48 + n) else Char.ofNat (55 + n)

/-- Hexadecimal digits, least significant first (empty for 0), with
structural fuel so that concrete values reduce in the kernel; fuel `n`
always suffices since the argument at least halves each step. -/
def toHexRevAux : Nat → Nat → List Char
  | _, 0 => []
  | 0, _ + 1 => []
  | fuel + 1, n + 1 => hexDigit ((n + 1) % 16) :: toHexRevAux fuel ((n + 1) / 16)

/-- Hexadecimal digits of `n`, least significant first (empty for 0). -/
def toHexRev (n : Nat) : List Char := toHexRevAux n n

/-- Hexadecimal digit string of `n` as `%X` prints it (at least one digit). -/
def hexStr (n : Nat) : List Char :=
  if n = 0 then ['0'] else (toHexRev n).reverse

/-- `sprintf("%08X", n)`: the hex digits of `n` left-padded with `'0'`
to a minimum width of 8 (line 264). -/
def toHex8 (n : Nat) : String :=
  ⟨List.replicate (8 - (hexStr n).length) '0' ++ hexStr n⟩

/-- Numeric value of one hex digit character (inverse of `hexDigit`). -/
def hexVal (c : Char) : Nat :=
  if c.toNat ≥ 65 then c.toNat - 55 else c.toNat - 48

/-- Value of a least-significant-first hex digit list. -/
def hexListVal : List Char → Nat
  | [] => 0
  | c :: r => hexVal c + 16 * hexListVal r

/-- The `std::find_if` at line 257: the FIRST parsed name record whose
`FileId` equals the entry's `Crc`, if any. -/
def findName : List (Nat × String) → Nat → Option String
  | [], _ => none
  | (i, s) :: rest, crc => if i = crc then some s else findName rest crc

/-- Line 258: the looked-up name, or `""` when no record matches. -/
def lookupName (stringEntries : List (Nat × String)) (crc : Nat) : String :=
  (findName stringEntries crc).getD ""

/-- Spec-side definition following the spec's words "last write wins on
duplicate ids": the name of the LAST matching record, if any. -/
def findNameLastWins (stringEntries : List (Nat × String)) (crc : Nat) : Option String :=
  findName stringEntries.reverse crc

/-- The sequential chunk loop of `save_compressed_file` (lines 104-115):
for each chunk size in order, read that many raw bytes at the cursor and
append the decompressor's output bytes (`bufferDec` truncated to the
returned `decSize`). -/
def decompressChunks (D : List Nat → List Nat) (file : List Nat) :
    Nat → List Nat → List Nat
  | _, [] => []
  | pos, s :: rest => D (readBytes file pos s) ++ decompressChunks D file (pos + s) rest

/-- `save_compressed_file` (lines 79-130), modelled as the bytes written
for the entry at absolute byte `offset`: `none` when no output file is
created (the whole body past the header read is under `if (chunks > 0)`),
`some bytes` for the file written to `dump//name`.  The leading
`fileSize` field (line 87) is read but never used, and the `size`
parameter is unused by the body. -/
def save_compressed_file (D : List Nat → List Nat) (file : List Nat)
    (offset : Nat) (_size : Nat) : Option (List Nat) :=
  let chunks := readU32 file (offset + 4)
  if chunks = 0 then none
  else
    let chunkSizes := (List.range chunks).map (fun x => readU32 file (offset + 8 + 4 * x))
    some (decompressChunks D file (offset + 8 + 4 * chunks) chunkSizes)

/-- Serialisation of the on-disk chunked payload read by
`save_compressed_file`: `fileSize`, `chunkCount`, the chunk-size table,
then the raw compressed chunk buffers in order. -/
def serializeChunkedPayload (fileSize : Nat) (chunks : List (List Nat)) : List Nat :=
  u32le fileSize ++ u32le chunks.length ++
    (chunks.map (fun c => u32le c.length)).flatten ++ chunks.flatten

/-- The branch condition of the dump loop (line 261): the entry's
resolved name is empty, so a synthetic name is generated. -/
def isUnresolved (stringEntries : List (Nat × String)) (e : pakfileentry_t) : Bool :=
  (lookupName stringEntries e.Crc).length == 0

/-- The do-while string-table parse loop (lines 234-247) with explicit
fuel: read an 8-byte `pakfilename_t` header then `NameSize` name bytes,
push the pair, add `sizeof(pakfilename_t) + NameSize` to the `uint32_t`
accumulator `sSize`, and repeat while `sSize < tSize`.  Returns the
parsed `(FileId, name)` pairs and the file position after the last
record read. -/
def parseStringTableLoop (file : List Nat) :
    Nat → Nat → Nat → Nat → List (Nat × String) × Nat
  | 0, pos, _, _ => ([], pos)
  | fuel + 1, pos, sSize, tSize =>
    let fileId := readU32 file pos
    let nameSize := readU32 file (pos + 4)
    let fname : String := ⟨(readBytes file (pos + 8) nameSize).map Char.ofNat⟩
    let sSize' := (sSize + 8 + nameSize) % 2 ^ 32
    if sSize' < tSize then
      let rest := parseStringTableLoop file fuel (pos + 8 + nameSize) sSize' tSize
      ((fileId, fname) :: rest.1, rest.2)
    else ([(fileId, fname)], pos + 8 + nameSize)

/-- The string-table parse (lines 231-247) starting right after the
8-byte table header, with fuel `tSize`: every iteration adds at least 8
to `sSize`, so `tSize` iterations cover every terminating run. -/
def parseStringTable (file : List Nat) (pos tSize : Nat) : List (Nat × String) × Nat :=
  parseStringTableLoop file tSize pos 0 tSize

/-- Serialisation of one well-formed name record: the 8-byte fixed
header (`FileId`, `NameSize`) followed by exactly `NameSize` name bytes. -/
def serializeNameRecord (r : Nat × List Nat) : List Nat :=
  u32le r.1 ++ u32le r.2.length ++ r.2

/-- On-disk byte size of a well-formed name record. -/
def nameRecordSize (r : Nat × List Nat) : Nat := 8 + r.2.length

/-- The parsed form of a well-formed name record. -/
def parsedNameRecord (r : Nat × List Nat) : Nat × String :=
  (r.1, ⟨r.2.map Char.ofNat⟩)

/-- One output of the dump loop: the resolved file name, the absolute
data offset passed to `save_compressed_file`, and the bytes written
(`none` when no file was created). -/
structure EmittedFile where
  name : String
  offset : Nat
  saved : Option (List Nat)
deriving DecidableEq, Repr

/-- The `std::for_each` dump loop (lines 254-274): resolve each entry's
name via `find_if` (first match), fall back to the synthetic
`"%08X.unknown_file"` name when the resolved name is empty, then dump
from `Position * Unknown00`.  `cnt` is `unknownFileCount`. -/
def emitFiles (D : List Nat → List Nat) (file : List Nat) (header : pakheader_t)
    (stringEntries : List (Nat × String)) :
    List pakfileentry_t → Nat → List EmittedFile
  | [], _ => []
  | e :: rest, cnt =>
    let name0 := lookupName stringEntries e.Crc
    let off := e.Position * header.Unknown00
    if name0.length = 0 then
      ⟨toHex8 cnt ++ ".unknown_file", off, save_compressed_file D file off e.Size⟩ ::
        emitFiles D file header stringEntries rest (cnt + 1)
    else
      ⟨name0, off, save_compressed_file D file off e.Size⟩ ::
        emitFiles D file header stringEntries rest cnt

/-- Observable outcome of one `process_pak_karl` run past the sort. -/
structure KarlRun where
  locator : Option pakfileentry_t
  extractable : List pakfileentry_t
  nameTableSeek : Option Nat
  stringEntries : List (Nat × String)
  files : List EmittedFile
deriving DecidableEq, Repr

/-- `process_pak_karl` after the entry read and sort (lines 199-275), as
a function of the sorted entry vector: pop the back entry as the
string-table locator, seek to `Position * Unknown00`, read `tSize`
(returning early with no files when it is 0), parse the string table
starting 8 bytes further (after `tSize` and the padding word), then run
the dump loop over the remaining entries. -/
def process_post_sort (D : List Nat → List Nat) (file : List Nat)
    (header : pakheader_t) (sorted : List pakfileentry_t) (eCount : Nat) : KarlRun :=
  if eCount = 0 then ⟨none, [], none, [], []⟩
  else
    let fileEntry := sorted.getLastD ⟨0, 0, 0⟩
    let remaining := sorted.dropLast
    let tOff := fileEntry.Position * header.Unknown00
    let tSize := readU32 file tOff
    let stringEntries := if tSize = 0 then [] else (parseStringTable file (tOff + 8) tSize).1
    let files :=
      if tSize = 0 then [] else emitFiles D file header stringEntries remaining 0
    ⟨some fileEntry, remaining, some tOff, stringEntries, files⟩

/-- Overall outcome of one run of the dumper on an opened file. -/
inductive PakResult where
  | truncatedInput : PakResult
  | unsupportedFormat : PakResult
  | karlRejected : PakResult
  | karlRun : KarlRun → PakResult
deriving DecidableEq, Repr

/-- `process_pak_karl` (lines 147-275) as a relation (the embedded
`std::sort` call is relational): the validation at line 150 rejects a
zero file size or an unset `IsValid` flag, otherwise `eCount` and
`sCount` are read at `EntriesOffset`, the entry records right after
them, and any admissible sort output feeds the rest of the run. -/
def karlRel (D : List Nat → List Nat) (file : List Nat) (fileSize : Nat)
    (header : pakheader_t) (res : PakResult) : Prop :=
  if fileSize = 0 ∨ header.IsValid = 0 then res = PakResult.karlRejected
  else
    let eCount := readU32 file header.EntriesOffset
    ∃ sorted, sortRel (readEntryList file (header.EntriesOffset + 8) eCount) sorted ∧
      res = PakResult.karlRun (process_post_sort D file header sorted eCount)

/-- `main` from the file-size check onward (lines 307-335): reject files
shorter than `sizeof(pakheader_t) = 32`, read the header, then dispatch
on the signature — `KaikoCompressedLE` runs `process_pak_karl`, every
other value runs `process_pak_unsupported`, which only prints. -/
def mainRel (D : List Nat → List Nat) (file : List Nat) (res : PakResult) : Prop :=
  if file.length < 32 then res = PakResult.truncatedInput
  else
    let header := readHeader file
    if header.Signature = KaikoCompressedLE then karlRel D file file.length header res
    else res = PakResult.unsupportedFormat

/-- A minimal 32-byte container: valid header with the Kaiko LE
signature, `IsValid = 1`, `positionScale = 16`, and an entry-table
offset pointing past the end of the file (so zero entries are read). -/
def sampleKarlFile : List Nat :=
  u32le KaikoCompressedLE ++ u32le 1 ++ u32le 16 ++ u32le 256 ++
    u32le 100 ++ u32le 0 ++ u32le 0 ++ u32le 0

/-- The files actually written to the dump directory by a run. -/
def extractedFiles (res : PakResult) : List (String × List Nat) :=
  match res with
  | PakResult.karlRun run => run.files.filterMap (fun e => e.saved.map (fun b => (e.name, b)))
  | _ => []

theorem sortRel_perm {input output : List pakfileentry_t} (h : sortRel input output) :
    input.Perm output := h.1

theorem sortRel_pairwise_posLE {input output : List pakfileentry_t}
    (h : sortRel input output) : output.Pairwise posLE :=
  h.2.imp (fun hab => Nat.le_of_not_lt hab)

theorem pairwise_entryLess_of_nodup {l : List pakfileentry_t}
    (hle : l.Pairwise posLE) (hnd : (l.map pakfileentry_t.Position).Nodup) :
    l.Pairwise entryLess :=
  (hle.and (List.pairwise_map.mp hnd)).imp
    (fun hab => Nat.lt_of_le_of_ne hab.1 hab.2)

theorem stableSortByPosition_perm (l : List pakfileentry_t) :
    (stableSortByPosition l).Perm l :=
  List.perm_insertionSort posLE l

theorem stableSortByPosition_pairwise (l : List pakfileentry_t) :
    (stableSortByPosition l).Pairwise posLE :=
  List.sorted_insertionSort posLE l

/-- C1 counterexample: two entries read in order with equal `Position`
values may legitimately come out of `std::sort` in swapped order, which
differs from the stable sort the claim asserts. -/
theorem c1_stable_sort_counterexample :
    sortRel [⟨0, 5, 0⟩, ⟨1, 5, 0⟩] [⟨1, 5, 0⟩, ⟨0, 5, 0⟩] ∧
      [(⟨1, 5, 0⟩ : pakfileentry_t), ⟨0, 5, 0⟩] ≠
        stableSortByPosition [⟨0, 5, 0⟩, ⟨1, 5, 0⟩] :=
  ⟨⟨List.Perm.swap _ _ _, by decide⟩, by decide⟩

/-- C1 (amended): every admissible output of the sort call is a
permutation of the read entries ordered ascending by `position`; when
the positions are pairwise distinct the output is moreover unique and
coincides with the stable sort, but on ties the relative order is
unspecified (`std::sort` is not stable). -/
theorem c1_sort_position_ordered (input output : List pakfileentry_t)
    (h : sortRel input output) :
    input.Perm output ∧ output.Pairwise posLE ∧
      ((input.map pakfileentry_t.Position).Nodup →
        output = stableSortByPosition input) := by
  refine ⟨h.1, sortRel_pairwise_posLE h, fun hnd => ?_⟩
  have hndo : (output.map pakfileentry_t.Position).Nodup :=
    ((h.1.map pakfileentry_t.Position).nodup_iff).mp hnd
  have hnds : ((stableSortByPosition input).map pakfileentry_t.Position).Nodup :=
    (((stableSortByPosition_perm input).map pakfileentry_t.Position).nodup_iff).mpr hnd
  have hlt : output.Pairwise entryLess :=
    pairwise_entryLess_of_nodup (sortRel_pairwise_posLE h) hndo
  have hlt2 : (stableSortByPosition input).Pairwise entryLess :=
    pairwise_entryLess_of_nodup (stableSortByPosition_pairwise input) hnds
  exact List.eq_of_perm_of_sorted
    (h.1.symm.trans (stableSortByPosition_perm input).symm) hlt hlt2

/-- C1 witness: the amended theorem applied to a concrete two-entry
input with distinct positions. -/
theorem c1_sort_witness :
    List.Perm [(⟨1, 10, 0⟩ : pakfileentry_t), ⟨2, 5, 0⟩] [⟨2, 5, 0⟩, ⟨1, 10, 0⟩] ∧
      List.Pairwise posLE [(⟨2, 5, 0⟩ : pakfileentry_t), ⟨1, 10, 0⟩] ∧
      (([(⟨1, 10, 0⟩ : pakfileentry_t), ⟨2, 5, 0⟩].map pakfileentry_t.Position).Nodup →
        [(⟨2, 5, 0⟩ : pakfileentry_t), ⟨1, 10, 0⟩] =
          stableSortByPosition [⟨1, 10, 0⟩, ⟨2, 5, 0⟩]) :=
  c1_sort_position_ordered [⟨1, 10, 0⟩, ⟨2, 5, 0⟩] [⟨2, 5, 0⟩, ⟨1, 10, 0⟩]
    ⟨List.Perm.swap _ _ _, by decide⟩

theorem byteAt_append (pre l : List Nat) (i : Nat) :
    byteAt (pre ++ l) (pre.length + i) = byteAt l i := by
  unfold byteAt
  rw [List.getD_append_right pre l 0 _ (Nat.le_add_right _ _), Nat.add_sub_cancel_left]

theorem readU32_shift (pre l : List Nat) (k : Nat) :
    readU32 (pre ++ l) (pre.length + k) = readU32 l k := by
  simp [readU32, Nat.add_assoc, byteAt_append]

theorem readBytes_shift (pre l : List Nat) (k n : Nat) :
    readBytes (pre ++ l) (pre.length + k) n = readBytes l k n := by
  simp [readBytes, Nat.add_assoc, byteAt_append]

theorem u32le_length (n : Nat) : (u32le n).length = 4 := rfl

theorem readU32_front (n : Nat) (post : List Nat) (h : n < 2 ^ 32) :
    readU32 (u32le n ++ post) 0 = n := by
  have he : readU32 (u32le n ++ post) 0 =
      n % 256 + 256 * (n / 256 % 256) + 65536 * (n / 65536 % 256) +
        16777216 * (n / 16777216 % 256) := rfl
  omega

theorem readBytes_front (l post : List Nat) : readBytes (l ++ post) 0 l.length = l := by
  apply List.ext_getElem
  · simp [readBytes]
  · intro i h1 h2
    have hi : i < l.length := h2
    simp only [readBytes, List.getElem_map, List.getElem_range, byteAt, Nat.zero_add]
    rw [List.getD_append l post 0 i hi, List.getD_eq_getElem l 0 hi]

theorem sizes_table_read (ns : List Nat) (post : List Nat) :
    ∀ x, x < ns.length → (∀ n ∈ ns, n < 2 ^ 32) →
      readU32 ((ns.map u32le).flatten ++ post) (4 * x) = ns.getD x 0 := by
  induction ns generalizing post with
  | nil => intro x hx _; simp at hx
  | cons m rest ih =>
    intro x hx hbound
    cases x with
    | zero =>
      have : (List.map u32le (m :: rest)).flatten ++ post =
          u32le m ++ ((List.map u32le rest).flatten ++ post) := by
        simp [List.append_assoc]
      rw [Nat.mul_zero, this, readU32_front m _ (hbound m (List.mem_cons_self m rest))]
      rfl
    | succ x =>
      have harr : 4 * (x + 1) = (u32le m).length + 4 * x := by
        rw [u32le_length]; omega
      have : (List.map u32le (m :: rest)).flatten ++ post =
          u32le m ++ ((List.map u32le rest).flatten ++ post) := by
        simp [List.append_assoc]
      rw [this, harr, readU32_shift]
      have := ih post x (by simpa using hx) (fun n hn => hbound n (List.mem_cons_of_mem m hn))
      simpa using this

theorem sizes_table_length (ns : List Nat) : (ns.map u32le).flatten.length = 4 * ns.length := by
  induction ns with
  | nil => rfl
  | cons m rest ih => simp [ih, u32le_length]; omega

theorem decompressChunks_shift (D : List Nat → List Nat) (pre l : List Nat) :
    ∀ (sizes : List Nat) (k : Nat),
      decompressChunks D (pre ++ l) (pre.length + k) sizes = decompressChunks D l k sizes := by
  intro sizes
  induction sizes with
  | nil => intro k; rfl
  | cons s rest ih =>
    intro k
    simp only [decompressChunks, readBytes_shift, Nat.add_assoc, ih]

theorem decompressChunks_flatten (D : List Nat → List Nat) :
    ∀ (chunks : List (List Nat)) (post : List Nat),
      decompressChunks D (chunks.flatten ++ post) 0 (chunks.map List.length) =
        (chunks.map D).flatten := by
  intro chunks
  induction chunks with
  | nil => intro post; rfl
  | cons c rest ih =>
    intro post
    simp only [List.map_cons, List.flatten_cons, List.append_assoc]
    simp only [decompressChunks, Nat.zero_add]
    rw [readBytes_front]
    have hshift := decompressChunks_shift D c (rest.flatten ++ post) (rest.map List.length) 0
    rw [Nat.add_zero] at hshift
    rw [hshift, ih post]

/-- C4: for an entry whose payload is a well-formed serialised chunk
stream, the bytes written are the exact concatenation, in chunk-index
order, of the decompressor's outputs for the compressed chunks. -/
theorem c4_chunk_reassembly (D : List Nat → List Nat) (fileSize : Nat)
    (chunks : List (List Nat)) (pre post : List Nat) (sz : Nat)
    (hne : chunks ≠ []) (hcnt : chunks.length < 2 ^ 32)
    (hlen : ∀ c ∈ chunks, c.length < 2 ^ 32) :
    save_compressed_file D (pre ++ serializeChunkedPayload fileSize chunks ++ post)
      pre.length sz = some ((chunks.map D).flatten) := by
  have hmm : chunks.map (fun c => u32le c.length) = (chunks.map List.length).map u32le := by
    simp [List.map_map]
  have hfile1 : pre ++ serializeChunkedPayload fileSize chunks ++ post =
      (pre ++ u32le fileSize) ++ (u32le chunks.length ++
        (((chunks.map List.length).map u32le).flatten ++ (chunks.flatten ++ post))) := by
    simp [serializeChunkedPayload, hmm, List.append_assoc]
  have hbound : ∀ n ∈ chunks.map List.length, n < 2 ^ 32 := by
    intro n hn
    rcases List.mem_map.mp hn with ⟨c, hc, rfl⟩
    exact hlen c hc
  have h1 : readU32 (pre ++ serializeChunkedPayload fileSize chunks ++ post)
      (pre.length + 4) = chunks.length := by
    rw [hfile1]
    have harr : pre.length + 4 = (pre ++ u32le fileSize).length + 0 := by
      simp [u32le_length]
    rw [harr, readU32_shift, readU32_front _ _ hcnt]
  have h2 : ∀ x, x < chunks.length →
      readU32 (pre ++ serializeChunkedPayload fileSize chunks ++ post)
        (pre.length + 8 + 4 * x) = (chunks.map List.length).getD x 0 := by
    intro x hx
    have hfile2 : pre ++ serializeChunkedPayload fileSize chunks ++ post =
        (pre ++ u32le fileSize ++ u32le chunks.length) ++
          (((chunks.map List.length).map u32le).flatten ++ (chunks.flatten ++ post)) := by
      simp [serializeChunkedPayload, hmm, List.append_assoc]
    have harr : pre.length + 8 + 4 * x =
        (pre ++ u32le fileSize ++ u32le chunks.length).length + 4 * x := by
      simp [u32le_length]
    rw [hfile2, harr, readU32_shift]
    exact sizes_table_read (chunks.map List.length) (chunks.flatten ++ post) x
      (by simpa using hx) hbound
  have h3 : decompressChunks D (pre ++ serializeChunkedPayload fileSize chunks ++ post)
      (pre.length + 8 + 4 * chunks.length) (chunks.map List.length) =
        (chunks.map D).flatten := by
    have hfile3 : pre ++ serializeChunkedPayload fileSize chunks ++ post =
        (pre ++ u32le fileSize ++ u32le chunks.length ++
            ((chunks.map List.length).map u32le).flatten) ++ (chunks.flatten ++ post) := by
      simp [serializeChunkedPayload, hmm, List.append_assoc]
    have hlen4 : ((chunks.map List.length).map u32le).flatten.length = 4 * chunks.length := by
      rw [sizes_table_length]; simp
    have harr : pre.length + 8 + 4 * chunks.length =
        (pre ++ u32le fileSize ++ u32le chunks.length ++
          ((chunks.map List.length).map u32le).flatten).length + 0 := by
      simp only [List.length_append, u32le_length, hlen4]
      omega
    rw [hfile3, harr, decompressChunks_shift]
    exact decompressChunks_flatten D chunks post
  have hsizes : (List.range chunks.length).map
      (fun x => readU32 (pre ++ serializeChunkedPayload fileSize chunks ++ post)
        (pre.length + 8 + 4 * x)) = chunks.map List.length := by
    apply List.ext_getElem
    · simp
    · intro i hi1 hi2
      have hi : i < chunks.length := by simpa using hi1
      simp only [List.getElem_map, List.getElem_range]
      rw [h2 i hi, List.getD_eq_getElem _ 0 (by simpa using hi)]
      simp
  simp only [save_compressed_file, h1]
  rw [if_neg (by simpa using hne), hsizes, h3]

/-- C4 witness: a one-entry, one-chunk payload whose chunk decompresses
to the byte sequence `B = [1, 2, 3, 1, 2, 3]`. -/
theorem c4_chunk_reassembly_witness :
    save_compressed_file (fun l => l ++ l)
      (([] : List Nat) ++ serializeChunkedPayload 6 [[1, 2, 3]] ++ [9, 9])
      ([] : List Nat).length 6 =
      some ((([[1, 2, 3]] : List (List Nat)).map (fun l => l ++ l)).flatten) :=
  c4_chunk_reassembly (fun l => l ++ l) 6 [[1, 2, 3]] [] [9, 9] 6 (by decide)
    (by decide) (by decide)

theorem serializeNameRecord_length (r : Nat × List Nat) :
    (serializeNameRecord r).length = nameRecordSize r := by
  simp [serializeNameRecord, nameRecordSize, u32le_length]
  omega

theorem parseLoop_exact :
    ∀ (recs : List (Nat × List Nat)) (pre post : List Nat) (sSize fuel tSize : Nat),
      recs ≠ [] →
      sSize + (recs.map nameRecordSize).sum = tSize →
      tSize < 2 ^ 32 →
      (∀ r ∈ recs, r.1 < 2 ^ 32) →
      recs.length ≤ fuel →
      parseStringTableLoop (pre ++ (recs.map serializeNameRecord).flatten ++ post)
        fuel pre.length sSize tSize =
        (recs.map parsedNameRecord, pre.length + (recs.map nameRecordSize).sum) := by
  intro recs
  induction recs with
  | nil => intro pre post sSize fuel tSize hne; exact absurd rfl hne
  | cons r rest ih =>
    intro pre post sSize fuel tSize _ hsum ht32 hid hfuel
    obtain ⟨f, rfl⟩ : ∃ f, fuel = f + 1 := by
      cases fuel with
      | zero => simp at hfuel
      | succ f => exact ⟨f, rfl⟩
    have hr2 : 8 + r.2.length ≤ ((r :: rest).map nameRecordSize).sum := by
      have : nameRecordSize r ∈ (r :: rest).map nameRecordSize :=
        List.mem_map_of_mem nameRecordSize (List.mem_cons_self r rest)
      have hle := List.single_le_sum (fun x _ => Nat.zero_le x) _ this
      simp only [nameRecordSize] at hle
      exact hle
    have hfile1 : pre ++ ((r :: rest).map serializeNameRecord).flatten ++ post =
        pre ++ (u32le r.1 ++ (u32le r.2.length ++
          (r.2 ++ ((rest.map serializeNameRecord).flatten ++ post)))) := by
      simp [serializeNameRecord, List.append_assoc]
    have hid1 : readU32 (pre ++ ((r :: rest).map serializeNameRecord).flatten ++ post)
        pre.length = r.1 := by
      rw [hfile1]
      have h0 : pre.length = pre.length + 0 := rfl
      rw [h0, readU32_shift, readU32_front _ _ (hid r (List.mem_cons_self r rest))]
    have hfile2 : pre ++ ((r :: rest).map serializeNameRecord).flatten ++ post =
        (pre ++ u32le r.1) ++ (u32le r.2.length ++
          (r.2 ++ ((rest.map serializeNameRecord).flatten ++ post))) := by
      simp [serializeNameRecord, List.append_assoc]
    have hsz : readU32 (pre ++ ((r :: rest).map serializeNameRecord).flatten ++ post)
        (pre.length + 4) = r.2.length := by
      rw [hfile2]
      have h4 : pre.length + 4 = (pre ++ u32le r.1).length + 0 := by
        simp [u32le_length]
      rw [h4, readU32_shift, readU32_front _ _ (by omega)]
    have hfile3 : pre ++ ((r :: rest).map serializeNameRecord).flatten ++ post =
        (pre ++ u32le r.1 ++ u32le r.2.length) ++
          (r.2 ++ ((rest.map serializeNameRecord).flatten ++ post)) := by
      simp [serializeNameRecord, List.append_assoc]
    have hnm : readBytes (pre ++ ((r :: rest).map serializeNameRecord).flatten ++ post)
        (pre.length + 8) r.2.length = r.2 := by
      rw [hfile3]
      have h8 : pre.length + 8 = (pre ++ u32le r.1 ++ u32le r.2.length).length + 0 := by
        simp [u32le_length]
      rw [h8, readBytes_shift, readBytes_front]
    have hmod : (sSize + 8 + r.2.length) % 2 ^ 32 = sSize + 8 + r.2.length :=
      Nat.mod_eq_of_lt (by omega)
    simp only [parseStringTableLoop, hid1, hsz, hnm, hmod]
    cases rest with
    | nil =>
      have hstop : ¬ sSize + 8 + r.2.length < tSize := by
        simp [nameRecordSize] at hsum
        omega
      rw [if_neg hstop]
      simp [parsedNameRecord, nameRecordSize]
      omega
    | cons r2 rest2 =>
      have htail8 : 8 ≤ ((r2 :: rest2).map nameRecordSize).sum := by
        have : nameRecordSize r2 ∈ (r2 :: rest2).map nameRecordSize :=
          List.mem_map_of_mem nameRecordSize (List.mem_cons_self r2 rest2)
        have := List.single_le_sum (fun x _ => Nat.zero_le x) _ this
        have h2 : 8 ≤ nameRecordSize r2 := by simp [nameRecordSize]
        omega
      have hsum' : ((r :: r2 :: rest2).map nameRecordSize).sum =
          nameRecordSize r + ((r2 :: rest2).map nameRecordSize).sum := by
        simp
      have hgo : sSize + 8 + r.2.length < tSize := by
        rw [hsum'] at hsum
        simp [nameRecordSize] at hsum
        omega
      rw [if_pos hgo]
      have hpre' : pre.length + 8 + r.2.length = (pre ++ serializeNameRecord r).length := by
        simp [serializeNameRecord_length, nameRecordSize]
        omega
      have hfile4 : pre ++ ((r :: r2 :: rest2).map serializeNameRecord).flatten ++ post =
          (pre ++ serializeNameRecord r) ++
            (((r2 :: rest2).map serializeNameRecord).flatten ++ post) := by
        simp [List.append_assoc]
      have hrec := ih (pre ++ serializeNameRecord r) post (sSize + 8 + r.2.length) f tSize
        (by simp)
        (by rw [hsum'] at hsum; simp only [nameRecordSize] at hsum ⊢; omega)
        ht32
        (fun x hx => hid x (List.mem_cons_of_mem r hx))
        (by simpa using Nat.le_of_succ_le_succ hfuel)
      have hassoc : pre ++ serializeNameRecord r ++
          (((r2 :: rest2).map serializeNameRecord).flatten ++ post) =
          pre ++ serializeNameRecord r ++
            ((r2 :: rest2).map serializeNameRecord).flatten ++ post := by
        simp [List.append_assoc]
      rw [hpre', hfile4, hassoc, hrec]
      simp only [List.map_cons, Prod.mk.injEq, List.cons.injEq, parsedNameRecord,
        List.length_append, serializeNameRecord_length, nameRecordSize, List.sum_cons,
        and_true, true_and]
      omega

/-- C3: for `tableByteSize > 0` and any sequence of well-formed name
records whose cumulative byte lengths sum exactly to `tableByteSize`,
the parse loop terminates, consumes exactly those records, and stops
exactly at the boundary — for every continuation `post` of the file,
none of its bytes are read. -/
theorem c3_name_table_parse (recs : List (Nat × List Nat)) (pre post : List Nat)
    (tSize : Nat) (ht0 : 0 < tSize)
    (hsum : (recs.map nameRecordSize).sum = tSize)
    (ht32 : tSize < 2 ^ 32)
    (hid : ∀ r ∈ recs, r.1 < 2 ^ 32) :
    parseStringTable (pre ++ (recs.map serializeNameRecord).flatten ++ post)
      pre.length tSize = (recs.map parsedNameRecord, pre.length + tSize) := by
  have hne : recs ≠ [] := by
    intro h
    subst h
    simp at hsum
    omega
  have hfuel : recs.length ≤ tSize := by
    have hgen : ∀ (l : List (Nat × List Nat)), l.length ≤ (l.map nameRecordSize).sum := by
      intro l
      induction l with
      | nil => simp
      | cons a t iht =>
        simp only [List.map_cons, List.sum_cons, List.length_cons, nameRecordSize]
        omega
    calc recs.length ≤ (recs.map nameRecordSize).sum := hgen recs
    _ = tSize := hsum
  have hmain := parseLoop_exact recs pre post 0 tSize tSize hne (by omega) ht32 hid hfuel
  rw [parseStringTable, hmain, hsum]

/-- C3 witness: one record (`FileId` 7, name bytes "ab") in a table of
declared size 10, followed by unrelated bytes that must not be read. -/
theorem c3_name_table_witness :
    parseStringTable (([] : List Nat) ++
        ([((7 : Nat), [97, 98])].map serializeNameRecord).flatten ++ [1, 2, 3])
      ([] : List Nat).length 10 =
      ([((7 : Nat), [97, 98])].map parsedNameRecord, ([] : List Nat).length + 10) :=
  c3_name_table_parse [((7 : Nat), [97, 98])] [] [1, 2, 3] 10 (by decide) (by decide)
    (by decide) (by decide)

/-- C6: an entry whose chunked-payload header has `chunkCount == 0`
produces no output bytes and no output file: the whole body of
`save_compressed_file` past the header read sits under `if (chunks > 0)`. -/
theorem c6_zero_chunks_no_output (D : List Nat → List Nat) (file : List Nat)
    (offset sz : Nat) (h : readU32 file (offset + 4) = 0) :
    save_compressed_file D file offset sz = none := by
  simp [save_compressed_file, h]

/-- C6 witness: a concrete payload whose chunk count word is zero. -/
theorem c6_zero_chunks_witness :
    save_compressed_file (fun l => l) (u32le 5 ++ u32le 0) 0 7 = none :=
  c6_zero_chunks_no_output (fun l => l) (u32le 5 ++ u32le 0) 0 7 (by decide)

theorem hexVal_hexDigit (n : Nat) (h : n < 16) : hexVal (hexDigit n) = n := by
  interval_cases n <;> decide

theorem hexListVal_toHexRevAux :
    ∀ (fuel n : Nat), n ≤ fuel → hexListVal (toHexRevAux fuel n) = n := by
  intro fuel
  induction fuel with
  | zero =>
    intro n hn
    have : n = 0 := Nat.le_zero.mp hn
    subst this
    rfl
  | succ f ih =>
    intro n hn
    cases n with
    | zero => rfl
    | succ m =>
      have hdiv : (m + 1) / 16 ≤ f := by
        have := Nat.div_lt_self (Nat.succ_pos m) (by norm_num : 1 < 16)
        omega
      simp only [toHexRevAux, hexListVal]
      rw [hexVal_hexDigit _ (Nat.mod_lt _ (by norm_num)), ih _ hdiv]
      omega

theorem hexListVal_toHexRev (n : Nat) : hexListVal (toHexRev n) = n :=
  hexListVal_toHexRevAux n n (Nat.le_refl n)

theorem hexListVal_replicate_zero (k : Nat) : hexListVal (List.replicate k '0') = 0 := by
  induction k with
  | zero => rfl
  | succ k ih =>
    have h0 : hexVal '0' = 0 := by decide
    simp [List.replicate_succ, hexListVal, ih, h0]

theorem hexListVal_append_zeros (l : List Char) (k : Nat) :
    hexListVal (l ++ List.replicate k '0') = hexListVal l := by
  induction l with
  | nil => simpa using hexListVal_replicate_zero k
  | cons c t ih => simp [hexListVal, ih]

theorem hexStr_val (n : Nat) : hexListVal (hexStr n).reverse = n := by
  unfold hexStr
  split
  · rename_i h
    subst h
    decide
  · rw [List.reverse_reverse]
    exact hexListVal_toHexRev n

theorem toHex8_inj : Function.Injective toHex8 := by
  intro m n h
  have hdata : List.replicate (8 - (hexStr m).length) '0' ++ hexStr m =
      List.replicate (8 - (hexStr n).length) '0' ++ hexStr n := congrArg String.data h
  have hm := congrArg (fun l => hexListVal l.reverse) hdata
  simp only [List.reverse_append, List.reverse_replicate] at hm
  rw [hexListVal_append_zeros, hexListVal_append_zeros, hexStr_val, hexStr_val] at hm
  exact hm

theorem string_append_cancel_right (s t u : String) (h : s ++ u = t ++ u) : s = t := by
  have hd : s.data ++ u.data = t.data ++ u.data := by
    have := congrArg String.data h
    simpa [String.data_append] using this
  exact String.ext (List.append_cancel_right hd)

theorem emitFiles_length (D : List Nat → List Nat) (file : List Nat)
    (header : pakheader_t) (S : List (Nat × String)) :
    ∀ (entries : List pakfileentry_t) (cnt : Nat),
      (emitFiles D file header S entries cnt).length = entries.length := by
  intro entries
  induction entries with
  | nil => intro cnt; rfl
  | cons e rest ih =>
    intro cnt
    by_cases hc : (lookupName S e.Crc).length = 0
    · simp [emitFiles, hc, ih]
    · simp [emitFiles, hc, ih]

theorem emit_synthetic_names (D : List Nat → List Nat) (file : List Nat)
    (header : pakheader_t) (S : List (Nat × String)) :
    ∀ (entries : List pakfileentry_t) (cnt : Nat),
      ((entries.zip (emitFiles D file header S entries cnt)).filter
          (fun p => isUnresolved S p.1)).map (fun p => p.2.name) =
        (List.range (entries.countP (isUnresolved S))).map
          (fun k => toHex8 (cnt + k) ++ ".unknown_file") := by
  intro entries
  induction entries with
  | nil => intro cnt; rfl
  | cons e rest ih =>
    intro cnt
    by_cases hc : (lookupName S e.Crc).length = 0
    · have hbc : isUnresolved S e = true := by simp [isUnresolved, hc]
      simp only [emitFiles]
      rw [if_pos hc]
      rw [List.zip_cons_cons, List.filter_cons_of_pos (by simpa using hbc), List.map_cons]
      rw [List.countP_cons_of_pos _ _ (by simpa using hbc)]
      rw [List.range_succ_eq_map, List.map_cons, List.map_map]
      refine congrArg₂ List.cons (by simp) ?_
      rw [ih (cnt + 1)]
      apply List.map_congr_left
      intro k _
      have harith : cnt + 1 + k = cnt + (k + 1) := by omega
      simp [Function.comp, harith, Nat.succ_eq_add_one]
    · have hbc : isUnresolved S e = false := by simp [isUnresolved, hc]
      simp only [emitFiles]
      rw [if_neg hc]
      rw [List.zip_cons_cons, List.filter_cons_of_neg (by simpa using hbc)]
      rw [List.countP_cons_of_neg _ _ (by simpa using hbc)]
      exact ih cnt

/-- C5: synthetic names for unresolved entries are the zero-padded
8-hex-digit values of a counter that starts at `cnt` and increments once
per unresolved entry in emission order, suffixed `.unknown_file`; they
are pairwise distinct, and three unresolved entries starting from 0 get
`00000000.unknown_file`, `00000001.unknown_file`, `00000002.unknown_file`. -/
theorem c5_synthetic_names :
    (∀ (D : List Nat → List Nat) (file : List Nat) (header : pakheader_t)
        (S : List (Nat × String)) (entries : List pakfileentry_t) (cnt : Nat),
      ((entries.zip (emitFiles D file header S entries cnt)).filter
          (fun p => isUnresolved S p.1)).map (fun p => p.2.name) =
        (List.range (entries.countP (isUnresolved S))).map
          (fun k => toHex8 (cnt + k) ++ ".unknown_file") ∧
      (((entries.zip (emitFiles D file header S entries cnt)).filter
          (fun p => isUnresolved S p.1)).map (fun p => p.2.name)).Nodup) ∧
    (emitFiles (fun l => l) [] ⟨0, 0, 16, 0, 0, 0, 0⟩ []
        [⟨1, 0, 0⟩, ⟨2, 0, 0⟩, ⟨3, 0, 0⟩] 0).map EmittedFile.name =
      ["00000000.unknown_file", "00000001.unknown_file", "00000002.unknown_file"] := by
  constructor
  · intro D file header S entries cnt
    refine ⟨emit_synthetic_names D file header S entries cnt, ?_⟩
    rw [emit_synthetic_names D file header S entries cnt]
    refine List.Nodup.map ?_ (List.nodup_range _)
    intro a b hab
    have h1 : toHex8 (cnt + a) = toHex8 (cnt + b) :=
      string_append_cancel_right _ _ _ hab
    have h2 := toHex8_inj h1
    omega
  · decide

/-- C2 counterexample: with two name records sharing `FileId` 7, the
`find_if` lookup returns the FIRST record's name, not the last one the
claim specifies. -/
theorem c2_last_wins_counterexample :
    findName [(7, "a"), (7, "b")] 7 = some "a" ∧
      findNameLastWins [(7, "a"), (7, "b")] 7 = some "b" ∧
      some "a" ≠ some "b" := by
  refine ⟨by decide, by decide, by decide⟩

/-- C2 (amended): the lookup used for each extractable entry returns the
name of the FIRST name record with a matching `contentId` (first match
wins), regardless of any later duplicate records; duplicate ids are
handled totally (no crash). -/
theorem c2_first_match_wins (l1 l2 : List (Nat × String)) (crc : Nat) (s : String)
    (h : ∀ p ∈ l1, p.1 ≠ crc) :
    findName (l1 ++ (crc, s) :: l2) crc = some s := by
  induction l1 with
  | nil => simp [findName]
  | cons p t ih =>
    rcases p with ⟨i, nm⟩
    have hi : i ≠ crc := h (i, nm) (List.mem_cons_self _ _)
    simp only [List.cons_append, findName, if_neg hi]
    exact ih (fun q hq => h q (List.mem_cons_of_mem _ hq))

/-- C2 witness: the first of two duplicate records for id 7 wins. -/
theorem c2_first_match_witness :
    findName ([((3 : Nat), "x")] ++ ((7 : Nat), "first") :: [((7 : Nat), "dup")]) 7 =
      some "first" :=
  c2_first_match_wins [((3 : Nat), "x")] [((7 : Nat), "dup")] 7 "first" (by decide)

/-- C10: an entry whose `contentId` resolves to an empty name is
treated exactly like an entry with no name-table mapping at all: it
gets the current synthetic name and the counter increments — the two
cases produce identical emission steps. -/
theorem c10_empty_name_like_unresolved (D : List Nat → List Nat) (file : List Nat)
    (header : pakheader_t) (S : List (Nat × String)) (e : pakfileentry_t)
    (rest : List pakfileentry_t) (cnt : Nat)
    (h : findName S e.Crc = some "" ∨ findName S e.Crc = none) :
    emitFiles D file header S (e :: rest) cnt =
      ⟨toHex8 cnt ++ ".unknown_file", e.Position * header.Unknown00,
        save_compressed_file D file (e.Position * header.Unknown00) e.Size⟩ ::
        emitFiles D file header S rest (cnt + 1) := by
  have hc : (lookupName S e.Crc).length = 0 := by
    rcases h with h | h <;> simp [lookupName, h]
  simp only [emitFiles]
  rw [if_pos hc]

/-- C10 witness: id 5 is present in the name table but maps to `""`. -/
theorem c10_empty_name_witness :
    emitFiles (fun l => l) [] ⟨0, 0, 16, 0, 0, 0, 0⟩ [((5 : Nat), "")] [⟨5, 2, 0⟩] 0 =
      ⟨toHex8 0 ++ ".unknown_file", 2 * 16,
        save_compressed_file (fun l => l) [] (2 * 16) 0⟩ ::
        emitFiles (fun l => l) [] ⟨0, 0, 16, 0, 0, 0, 0⟩ [((5 : Nat), "")] [] 1 :=
  c10_empty_name_like_unresolved (fun l => l) [] ⟨0, 0, 16, 0, 0, 0, 0⟩
    [((5 : Nat), "")] ⟨5, 2, 0⟩ [] 0 (Or.inl (by decide))

/-- C7: with `entryCount > 0` and a nonempty position-sorted entry
vector, the driver pops exactly the last (highest-position) entry as
the name-table locator, seeks to its `Position * Unknown00`, and the
remaining entries — the sorted vector minus that locator — are exactly
the extractable file set. -/
theorem c7_locator_last (D : List Nat → List Nat) (file : List Nat)
    (header : pakheader_t) (sorted : List pakfileentry_t) (eCount : Nat)
    (hE : eCount ≠ 0) (hne : sorted ≠ []) (hsrt : sorted.Pairwise posLE) :
    ∃ loc, (process_post_sort D file header sorted eCount).locator = some loc ∧
      (process_post_sort D file header sorted eCount).extractable = sorted.dropLast ∧
      sorted = (process_post_sort D file header sorted eCount).extractable ++ [loc] ∧
      (∀ e ∈ sorted, e.Position ≤ loc.Position) ∧
      (process_post_sort D file header sorted eCount).nameTableSeek =
        some (loc.Position * header.Unknown00) := by
  have hLast : sorted.getLast?.getD ⟨0, 0, 0⟩ = sorted.getLast hne := by
    cases sorted with
    | nil => exact absurd rfl hne
    | cons a t => simp [List.getLast?_eq_getLast]
  refine ⟨sorted.getLast hne, ?_, ?_, ?_, ?_, ?_⟩
  · simp [process_post_sort, hE, hLast]
  · simp [process_post_sort, hE]
  · rw [show (process_post_sort D file header sorted eCount).extractable =
        sorted.dropLast by simp [process_post_sort, hE]]
    exact (List.dropLast_append_getLast hne).symm
  · intro e he
    rw [← List.dropLast_append_getLast hne] at hsrt he
    rcases List.mem_append.mp he with h1 | h2
    · exact (List.pairwise_append.mp hsrt).2.2 e h1 (sorted.getLast hne) (by simp)
    · have : e = sorted.getLast hne := by simpa using h2
      subst this
      exact Nat.le_refl _
  · simp [process_post_sort, hE, hLast]

/-- C7 witness: two sorted entries; the position-20 entry is consumed
as the locator, the position-10 entry remains extractable. -/
theorem c7_locator_witness :
    ∃ loc, (process_post_sort (fun l => l) [] ⟨0, 0, 16, 0, 0, 0, 0⟩
        [⟨1, 10, 0⟩, ⟨2, 20, 0⟩] 2).locator = some loc ∧
      (process_post_sort (fun l => l) [] ⟨0, 0, 16, 0, 0, 0, 0⟩
        [⟨1, 10, 0⟩, ⟨2, 20, 0⟩] 2).extractable =
          ([⟨1, 10, 0⟩, ⟨2, 20, 0⟩] : List pakfileentry_t).dropLast ∧
      ([⟨1, 10, 0⟩, ⟨2, 20, 0⟩] : List pakfileentry_t) =
        (process_post_sort (fun l => l) [] ⟨0, 0, 16, 0, 0, 0, 0⟩
          [⟨1, 10, 0⟩, ⟨2, 20, 0⟩] 2).extractable ++ [loc] ∧
      (∀ e ∈ ([⟨1, 10, 0⟩, ⟨2, 20, 0⟩] : List pakfileentry_t),
        e.Position ≤ loc.Position) ∧
      (process_post_sort (fun l => l) [] ⟨0, 0, 16, 0, 0, 0, 0⟩
        [⟨1, 10, 0⟩, ⟨2, 20, 0⟩] 2).nameTableSeek =
          some (loc.Position * (⟨0, 0, 16, 0, 0, 0, 0⟩ : pakheader_t).Unknown00) :=
  c7_locator_last (fun l => l) [] ⟨0, 0, 16, 0, 0, 0, 0⟩ [⟨1, 10, 0⟩, ⟨2, 20, 0⟩] 2
    (by decide) (by decide) (by decide)

theorem emitFiles_offsets (D : List Nat → List Nat) (file : List Nat)
    (header : pakheader_t) (S : List (Nat × String)) :
    ∀ (entries : List pakfileentry_t) (cnt : Nat),
      (emitFiles D file header S entries cnt).map EmittedFile.offset =
        entries.map (fun e => e.Position * header.Unknown00) := by
  intro entries
  induction entries with
  | nil => intro cnt; rfl
  | cons e rest ih =>
    intro cnt
    by_cases hc : (lookupName S e.Crc).length = 0
    · simp [emitFiles, hc, ih]
    · simp [emitFiles, hc, ih]

/-- C9: both dereferences of a stored position field scale it by
`Unknown00` (the header's position scale): the name-table seek is
`locator.Position * Unknown00`, and every per-entry data seek is that
entry's `Position * Unknown00`. -/
theorem c9_position_scaling (D : List Nat → List Nat) (file : List Nat)
    (header : pakheader_t) (sorted : List pakfileentry_t) (eCount : Nat)
    (hE : eCount ≠ 0) :
    (process_post_sort D file header sorted eCount).nameTableSeek =
      some ((sorted.getLastD ⟨0, 0, 0⟩).Position * header.Unknown00) ∧
    (readU32 file ((sorted.getLastD ⟨0, 0, 0⟩).Position * header.Unknown00) ≠ 0 →
      (process_post_sort D file header sorted eCount).files.map EmittedFile.offset =
        (process_post_sort D file header sorted eCount).extractable.map
          (fun e => e.Position * header.Unknown00)) := by
  constructor
  · simp [process_post_sort, hE]
  · intro ht
    simp only [process_post_sort, if_neg hE]
    rw [if_neg ht]
    exact emitFiles_offsets D file header _ sorted.dropLast 0

/-- C9 witness: one entry, scale 16, a file whose table-size word is
nonzero at the scaled locator offset. -/
theorem c9_position_witness :
    (process_post_sort (fun l => l) (u32le 1) ⟨0, 0, 16, 0, 0, 0, 0⟩
        [⟨1, 0, 0⟩] 1).nameTableSeek =
      some ((([⟨1, 0, 0⟩] : List pakfileentry_t).getLastD ⟨0, 0, 0⟩).Position * 16) ∧
    (readU32 (u32le 1)
        ((([⟨1, 0, 0⟩] : List pakfileentry_t).getLastD ⟨0, 0, 0⟩).Position * 16) ≠ 0 →
      (process_post_sort (fun l => l) (u32le 1) ⟨0, 0, 16, 0, 0, 0, 0⟩
          [⟨1, 0, 0⟩] 1).files.map EmittedFile.offset =
        (process_post_sort (fun l => l) (u32le 1) ⟨0, 0, 16, 0, 0, 0, 0⟩
          [⟨1, 0, 0⟩] 1).extractable.map (fun e => e.Position * 16)) :=
  c9_position_scaling (fun l => l) (u32le 1) ⟨0, 0, 16, 0, 0, 0, 0⟩ [⟨1, 0, 0⟩] 1
    (by decide)

/-- C8: for a file at least as large as the header with `IsValid != 0`
and the recognized signature, the run reaches `process_pak_karl` and
proceeds to a processed result; for any other signature the result is
the unsupported-format condition and zero files are extracted. -/
theorem c8_signature_dispatch (D : List Nat → List Nat) (file : List Nat)
    (res : PakResult) (hlen : 32 ≤ file.length) :
    ((readHeader file).IsValid ≠ 0 → (readHeader file).Signature = KaikoCompressedLE →
      mainRel D file res → ∃ run, res = PakResult.karlRun run) ∧
    ((readHeader file).Signature ≠ KaikoCompressedLE →
      mainRel D file res → res = PakResult.unsupportedFormat ∧
        extractedFiles res = []) := by
  have hnl : ¬ file.length < 32 := by omega
  constructor
  · intro hv hs hm
    simp only [mainRel] at hm
    rw [if_neg hnl, if_pos hs] at hm
    simp only [karlRel] at hm
    rw [if_neg (by push_neg; exact ⟨by omega, hv⟩)] at hm
    obtain ⟨sorted, _, hres⟩ := hm
    exact ⟨_, hres⟩
  · intro hs hm
    simp only [mainRel] at hm
    rw [if_neg hnl, if_neg hs] at hm
    refine ⟨hm, ?_⟩
    rw [hm]
    rfl

/-- C8 witness: a concrete 32-byte valid Kaiko-signature container. -/
theorem c8_signature_witness :
    ((readHeader sampleKarlFile).IsValid ≠ 0 →
      (readHeader sampleKarlFile).Signature = KaikoCompressedLE →
      mainRel (fun l => l) sampleKarlFile
        (PakResult.karlRun ⟨none, [], none, [], []⟩) →
      ∃ run, PakResult.karlRun (⟨none, [], none, [], []⟩ : KarlRun) =
        PakResult.karlRun run) ∧
    ((readHeader sampleKarlFile).Signature ≠ KaikoCompressedLE →
      mainRel (fun l => l) sampleKarlFile
        (PakResult.karlRun ⟨none, [], none, [], []⟩) →
      PakResult.karlRun (⟨none, [], none, [], []⟩ : KarlRun) =
        PakResult.unsupportedFormat ∧
        extractedFiles (PakResult.karlRun ⟨none, [], none, [], []⟩) = []) :=
  c8_signature_dispatch (fun l => l) sampleKarlFile
    (PakResult.karlRun ⟨none, [], none, [], []⟩) (by decide)

end Depak
